import Mathlib

/-!
Verification of the ttyconv transcoding terminal relay.

The development shallowly embeds the program's data model and operations:

* the stream codec used by `lenientDecode` / `lenientEncode` and by the
  incremental decoder of `handle_output_from_system` (UTF-8 instance,
  modelled byte-precisely after the spec's incremental-transcoder contract,
  since the codec machinery itself is Python library code outside this
  repository);
* command-line validation (`validateCommandLineArguments`, `guessEncoding`)
  and locale rewriting (`setLocale`);
* process supervision (`terminate`, `close`) over an abstract child whose
  reaction to each signal is a parameter;
* the relay loop (`interact`) and its flush loop (`write`), driven by an
  oracle environment that supplies readiness, read chunks, partial-write
  acceptance counts, and the child's remaining liveness budget (the number
  of `isalive` calls that still report the child running).

Bytes and code points are natural numbers; environment mappings are
association lists; fallible operations return `Option`.
-/

namespace Ttyconv

/-- Unicode scalar values: code points below 0x110000 outside the
surrogate range.  These are exactly the characters representable in
UTF-8. -/
def ScalarValue (c : Nat) : Prop := c < 1114112 ∧ (c < 55296 ∨ 57343 < c)

instance (c : Nat) : Decidable (ScalarValue c) := by
  unfold ScalarValue
  infer_instance

/-- UTF-8 encoding of one scalar value as a list of bytes. -/
def utf8EncodeChar (c : Nat) : List Nat :=
  if c < 128 then [c]
  else if c < 2048 then [192 + c / 64, 128 + c % 64]
  else if c < 65536 then [224 + c / 4096, 128 + c / 64 % 64, 128 + c % 64]
  else [240 + c / 262144, 128 + c / 4096 % 64, 128 + c / 64 % 64, 128 + c % 64]

/-- Modelled from the spec: the incremental UTF-8 decode step used by the
transcoder (the codec itself is Python library code, not part of this
repository's sources).  Decoding consumes complete sequences greedily from
the front, replaces each maximal invalid subpart by one U+FFFD (65533) and
resumes at the next byte, and retains a trailing valid prefix of a longer
sequence as the carry.  The result is (decoded code points, carry bytes). -/
def utf8DecGo : List Nat → List Nat × List Nat
  | [] => ([], [])
  | b :: rest =>
    if b < 128 then
      (b :: (utf8DecGo rest).1, (utf8DecGo rest).2)
    else if 194 ≤ b ∧ b ≤ 223 then
      match rest with
      | [] => ([], [b])
      | b1 :: rest1 =>
        if 128 ≤ b1 ∧ b1 ≤ 191 then
          (((b - 192) * 64 + (b1 - 128)) :: (utf8DecGo rest1).1, (utf8DecGo rest1).2)
        else
          (65533 :: (utf8DecGo (b1 :: rest1)).1, (utf8DecGo (b1 :: rest1)).2)
    else if 224 ≤ b ∧ b ≤ 239 then
      match rest with
      | [] => ([], [b])
      | b1 :: rest1 =>
        if (b = 224 ∧ 160 ≤ b1 ∧ b1 ≤ 191) ∨ (b = 237 ∧ 128 ≤ b1 ∧ b1 ≤ 159) ∨
            (b ≠ 224 ∧ b ≠ 237 ∧ 128 ≤ b1 ∧ b1 ≤ 191) then
          match rest1 with
          | [] => ([], [b, b1])
          | b2 :: rest2 =>
            if 128 ≤ b2 ∧ b2 ≤ 191 then
              (((b - 224) * 4096 + (b1 - 128) * 64 + (b2 - 128)) :: (utf8DecGo rest2).1,
                (utf8DecGo rest2).2)
            else
              (65533 :: (utf8DecGo (b2 :: rest2)).1, (utf8DecGo (b2 :: rest2)).2)
        else
          (65533 :: (utf8DecGo (b1 :: rest1)).1, (utf8DecGo (b1 :: rest1)).2)
    else if 240 ≤ b ∧ b ≤ 244 then
      match rest with
      | [] => ([], [b])
      | b1 :: rest1 =>
        if (b = 240 ∧ 144 ≤ b1 ∧ b1 ≤ 191) ∨ (b = 244 ∧ 128 ≤ b1 ∧ b1 ≤ 143) ∨
            (b ≠ 240 ∧ b ≠ 244 ∧ 128 ≤ b1 ∧ b1 ≤ 191) then
          match rest1 with
          | [] => ([], [b, b1])
          | b2 :: rest2 =>
            if 128 ≤ b2 ∧ b2 ≤ 191 then
              match rest2 with
              | [] => ([], [b, b1, b2])
              | b3 :: rest3 =>
                if 128 ≤ b3 ∧ b3 ≤ 191 then
                  (((b - 240) * 262144 + (b1 - 128) * 4096 + (b2 - 128) * 64 + (b3 - 128)) ::
                      (utf8DecGo rest3).1, (utf8DecGo rest3).2)
                else
                  (65533 :: (utf8DecGo (b3 :: rest3)).1, (utf8DecGo (b3 :: rest3)).2)
            else
              (65533 :: (utf8DecGo (b2 :: rest2)).1, (utf8DecGo (b2 :: rest2)).2)
        else
          (65533 :: (utf8DecGo (b1 :: rest1)).1, (utf8DecGo (b1 :: rest1)).2)
    else
      (65533 :: (utf8DecGo rest).1, (utf8DecGo rest).2)
termination_by l => l.length
decreasing_by all_goals simp_arith

/-- `lenientDecode(string, encoding, replace)` of `ttyconv.py`, UTF-8
instance: a one-shot `codecs.decode(string, encoding, errors='replace')`.
A trailing incomplete sequence is an error in a one-shot decode and
becomes one replacement character.  Note the replacement character of
`errors='replace'` is U+FFFD (65533); the `replace` parameter of the
source function is ignored by its body. -/
def lenientDecode (bs : List Nat) : List Nat :=
  (utf8DecGo bs).1 ++ (if (utf8DecGo bs).2 = [] then [] else [65533])

/-- `lenientEncode(string, encoding, replace)` of `ttyconv.py`, UTF-8
instance: `codecs.encode(string, encoding, errors='replace')`.  Characters
not representable (surrogates; code points past the Unicode range do not
occur in Python text) are replaced by `?` (byte 63). -/
def lenientEncode (s : List Nat) : List Nat :=
  (s.map (fun c => if ScalarValue c then utf8EncodeChar c else [63])).flatten

/-- One call of the incremental decoder of `handle_output_from_system`
(ttyconv2.py): the carry retained from the previous call is prefixed to
the new chunk's bytes and decoding resumes. -/
def decodeChunk (carry bs : List Nat) : List Nat × List Nat :=
  utf8DecGo (carry ++ bs)

/-- Byte sequences valid in the source encoding: concatenations of UTF-8
encodings of scalar values. -/
inductive Utf8Valid : List Nat → Prop
  | nil : Utf8Valid []
  | cons (c : Nat) (rest : List Nat) : ScalarValue c → Utf8Valid rest →
      Utf8Valid (utf8EncodeChar c ++ rest)

/-! ### Command-line validation and locale guessing

Strings are modelled as `List Char`; the codec table is abstracted by a
predicate `known` on encoding names (Python's `''.encode(name)` raising
`LookupError` exactly on unknown names); the process environment is a
partial map from variable names to values. -/

/-- Python's `str.split('.')`. -/
def splitDot : List Char → List (List Char)
  | [] => [[]]
  | ch :: t =>
    if ch = '.' then [] :: splitDot t
    else
      match splitDot t with
      | [] => [[ch]]
      | p :: ps => (ch :: p) :: ps

/-- Python's `str.upper()` (ASCII contents in practice). -/
def upperLC (s : List Char) : List Char := s.map Char.toUpper

/-- The body of `guessEncoding`'s loop for one variable: the value must be
truthy (`if val:`), `locale, encoding = val.split('.')` must not raise
(exactly two parts), and `''.encode(encoding)` must not raise (known
encoding); otherwise the variable is skipped. -/
def tryKeyVal (known : List Char → Bool) (v : List Char) : Option (List Char) :=
  if v = [] then none
  else
    match splitDot v with
    | [_, enc] => if known enc then some enc else none
    | _ => none

/-- The keys `guessEncoding` examines, in order. -/
def localeKeys : List (List Char) := ["LC_ALL".toList, "LC_CTYPE".toList, "LANG".toList]

/-- The `for key in [...]` loop of `guessEncoding`. -/
def guessLoop (known : List Char → Bool) (env : List Char → Option (List Char)) :
    List (List Char) → Option (List Char)
  | [] => none
  | k :: ks =>
    match env k with
    | none => guessLoop known env ks
    | some v =>
      match tryKeyVal known v with
      | some e => some e
      | none => guessLoop known env ks

/-- `guessEncoding` of `ttyconv.py`: first qualifying locale variable's
encoding suffix, `none` when the subsequent `fail` (exit 1) is reached. -/
def guessEncoding (known : List Char → Bool) (env : List Char → Option (List Char)) :
    Option (List Char) :=
  guessLoop known env localeKeys

/-- Stated from the claim's words: a value qualifies when it splits into
exactly two parts at a dot and its suffix names a known encoding. -/
def qualifyingSuffix (known : List Char → Bool) (v : List Char) : Option (List Char) :=
  match splitDot v with
  | [_, enc] => if known enc then some enc else none
  | _ => none

/-- Stated from the claim's words: the suffixes of the qualifying
variables, in examination order. -/
def qualifyingSuffixes (known : List Char → Bool) (env : List Char → Option (List Char)) :
    List (List Char) :=
  localeKeys.filterMap (fun k => (env k).bind (qualifyingSuffix known))

/-- `validateCommandLineArguments` of `ttyconv.py` (the `--list` path is
not modelled).  The result is the validated `(remote, local)` pair, or
`none` when `fail` (exit code 1) is reached.  Note: in the explicit-local
branch the source re-checks `self.options.remote`, not the local
encoding (line 202). -/
def validateCommandLineArguments (known : List Char → Bool)
    (remote localOpt : Option (List Char)) (env : List Char → Option (List Char)) :
    Option (List Char × List Char) :=
  match remote with
  | none => none
  | some r0 =>
    if known (upperLC r0) then
      match localOpt with
      | none =>
        match guessEncoding known env with
        | some e => some (upperLC r0, upperLC e)
        | none => none
      | some l0 =>
        if known (upperLC r0) then some (upperLC r0, upperLC l0) else none
    else none

/-- A sample codec table for concrete runs: only UTF-8 is known. -/
def knownSample : List Char → Bool := fun s => s == "UTF-8".toList

/-! ### Locale rewriting (`setLocale`) -/

/-- `val.split('.')[0]`: the characters before the first dot. -/
def beforeDot (s : List Char) : List Char := s.takeWhile (fun ch => ch ≠ '.')

/-- `key == 'LANG' or key.startswith('LC_')`. -/
def isLocaleKey (k : List Char) : Bool := k == "LANG".toList || "LC_".toList.isPrefixOf k

/-- `setLocale` of `ttyconv.py`: builds a fresh environment mapping; a
locale variable whose value ends with `'.' + local.upper()` is rebuilt as
`val.split('.')[0] + '.' + remote.upper()`. -/
def setLocale (localE remoteE : List Char) (env : List (List Char × List Char)) :
    List (List Char × List Char) :=
  env.map (fun kv =>
    if isLocaleKey kv.1 then
      if ('.' :: upperLC localE).isSuffixOf kv.2 then
        (kv.1, beforeDot kv.2 ++ '.' :: upperLC remoteE)
      else kv
    else kv)

/-- Stated from the claim's words: the matching suffix itself is replaced
by `'.' + remote.upper()`, everything before it is kept. -/
def setLocaleSpec (localE remoteE : List Char) (env : List (List Char × List Char)) :
    List (List Char × List Char) :=
  env.map (fun kv =>
    if isLocaleKey kv.1 then
      if ('.' :: upperLC localE).isSuffixOf kv.2 then
        (kv.1, kv.2.take (kv.2.length - ('.' :: upperLC localE).length) ++
          '.' :: upperLC remoteE)
      else kv
    else kv)

/-- Number of dots in a value. -/
def countDots (s : List Char) : Nat := s.count '.'

/-! ### Process supervision (`terminate`, `close`)

The child is abstract: `dies s` says whether delivering signal `s` to the
live child terminates it before the next liveness check (the
`TERMINATE_DELAY` pause makes the kernel state visible).  `isalive()` is
reading `alive`; `kill` checks liveness before sending. -/

inductive Sig
  | hup
  | cont
  | intr
  | kill
deriving DecidableEq

structure Child where
  alive : Bool
  dies : Sig → Bool

/-- `self.kill(sig)`: sends `sig` if the child is alive; the child state
after the following delay. -/
def sendSig (c : Child) (s : Sig) : Child :=
  if c.alive && c.dies s then { c with alive := false } else c

/-- `terminate(force)` of `ttyconv.py`: the escalation loop.  Returns the
result, the signals actually sent in order, and the final child state. -/
def terminate (c : Child) (force : Bool) : Bool × List Sig × Child :=
  if c.alive = false then (true, [], c)
  else
    let c1 := sendSig c Sig.hup
    if c1.alive = false then (true, [Sig.hup], c1)
    else
      let c2 := sendSig c1 Sig.cont
      if c2.alive = false then (true, [Sig.hup, Sig.cont], c2)
      else
        let c3 := sendSig c2 Sig.intr
        if c3.alive = false then (true, [Sig.hup, Sig.cont, Sig.intr], c3)
        else if force then
          let c4 := sendSig c3 Sig.kill
          if c4.alive = false then (true, [Sig.hup, Sig.cont, Sig.intr, Sig.kill], c4)
          else (false, [Sig.hup, Sig.cont, Sig.intr, Sig.kill], c4)
        else (false, [Sig.hup, Sig.cont, Sig.intr], c3)

/-- Outcome of delivering a list of signals in order. -/
def applySigs (c : Child) (l : List Sig) : Child := l.foldl sendSig c

/-- The full escalation sequence for a given `force`. -/
def fullSeq (force : Bool) : List Sig :=
  [Sig.hup, Sig.cont, Sig.intr] ++ (if force then [Sig.kill] else [])

/-- The claim's final clause: `terminate` returns false only if the child
is still alive after the unconditional kill (so a kill must have been
sent). -/
def falseOnlyAfterKill (c : Child) (force : Bool) : Prop :=
  (terminate c force).1 = false → Sig.kill ∈ (terminate c force).2.1

/-- A child that survives every signal. -/
def immortalChild : Child := { alive := true, dies := fun _ => false }

/-- A child that is already dead. -/
def deadChild : Child := { alive := false, dies := fun _ => false }

/-- A child that ignores everything but the unconditional kill. -/
def killableChild : Child := { alive := true, dies := fun s => decide (s = Sig.kill) }

/-- A session as `close` sees it: PTY master descriptor, closed flag,
child state. -/
structure Sess where
  fd : Int
  closed : Bool
  child : Child

/-- Observable actions of `close`. -/
inductive CAct
  | closeFd (fd : Int)
  | sig (s : Sig)
deriving DecidableEq

/-- `close(force)` of `ttyconv.py`.  `none` models the
`ExceptionPexpect` raised when `terminate` fails; otherwise the updated
session and the actions performed. -/
def close (s : Sess) (force : Bool) : Option (Sess × List CAct) :=
  if s.closed = true then some (s, [])
  else
    if s.child.alive = true then
      if (terminate s.child force).1 = true then
        some ({ fd := -1, closed := true, child := (terminate s.child force).2.2 },
          CAct.closeFd s.fd :: (terminate s.child force).2.1.map CAct.sig)
      else none
    else some ({ fd := -1, closed := true, child := s.child }, [CAct.closeFd s.fd])

/-! ### The relay loop (`interact`) and its flush loop (`write`)

The loop is driven by an oracle: per select iteration the environment
supplies readiness of the two descriptors, the chunks `os.read` returns,
and how many bytes each `os.write` accepts; `budget` is the number of
remaining `isalive()` calls that report the child running (liveness is
monotone: once dead, always dead).  The transcoding steps
`remoteToLocal` / `localToRemote` are abstracted as functions on byte
lists.  Note: in the flush loop the source's condition `data != ''`
compares bytes against str and is therefore always true in Python 3, so
the loop is left only through `isalive()` turning false. -/

inductive Act
  | readChild (data : List Nat)
  | readStdin (data : List Nat)
  | writeStdout (data : List Nat) (n : Nat)
  | writeChild (data : List Nat) (n : Nat)
deriving DecidableEq

structure IterEnv where
  childReady : Bool
  stdinReady : Bool
  childData : List Nat
  stdinData : List Nat
  stdoutN : Nat
  childNs : List Nat
deriving DecidableEq

/-- The `write` method (flush loop): `while data != '' and self.isalive():
n = os.write(fd, data); data = data[n:]`.  `ns` are the acceptance counts
of successive `os.write` calls.  Returns the write actions and the bytes
still unwritten when the loop exits. -/
def write (budget : Nat) (ns : List Nat) (data : List Nat) : List Act × List Nat :=
  match budget with
  | 0 => ([], data)
  | Nat.succ b =>
    ((Act.writeChild data (min (ns.headD 0) data.length)) ::
        (write b ns.tail (data.drop (min (ns.headD 0) data.length))).1,
      (write b ns.tail (data.drop (min (ns.headD 0) data.length))).2)

/-- The `interact` loop of `ttyconv.py`: while `isalive()`, select; if the
child PTY is readable, read, transcode remote-to-local and issue a single
`os.write` to standard output (the return value is not checked); if
standard input is readable, read, transcode local-to-remote and flush via
`write` to the PTY, which consumes the remaining liveness budget. -/
def interact (rtl ltr : List Nat → List Nat) : Nat → List IterEnv → List Act
  | _, [] => []
  | 0, _ :: _ => []
  | Nat.succ b, e :: es =>
    (if e.childReady then
        [Act.readChild e.childData,
          Act.writeStdout (rtl e.childData) (min e.stdoutN (rtl e.childData).length)]
      else []) ++
    (if e.stdinReady then
        Act.readStdin e.stdinData :: (write b e.childNs (ltr e.stdinData)).1 ++
          interact rtl ltr 0 es
      else interact rtl ltr b es)

/-- Bytes actually delivered to the PTY (child) by a trace. -/
def childBytesOf : List Act → List Nat
  | [] => []
  | Act.writeChild a n :: t => a.take n ++ childBytesOf t
  | _ :: t => childBytesOf t

/-- Bytes actually delivered to standard output by a trace. -/
def stdoutBytesOf : List Act → List Nat
  | [] => []
  | Act.writeStdout a n :: t => a.take n ++ stdoutBytesOf t
  | _ :: t => stdoutBytesOf t

/-- Chunks read from standard input in a trace. -/
def stdinReadsOf : List Act → List (List Nat)
  | [] => []
  | Act.readStdin d :: t => d :: stdinReadsOf t
  | _ :: t => stdinReadsOf t

/-- Chunks read from the child PTY in a trace. -/
def childReadsOf : List Act → List (List Nat)
  | [] => []
  | Act.readChild d :: t => d :: childReadsOf t
  | _ :: t => childReadsOf t

/-- Claim C4's property for the remote-to-local direction: after a
partially consumed write to standard output, the remaining bytes are
delivered before any further read from the child PTY. -/
def stdoutFlushedBeforeNextRead (tr : List Act) : Prop :=
  ∀ pre a n post, tr = pre ++ Act.writeStdout a n :: post → n < a.length →
    ∀ mid d rest2, post = mid ++ Act.readChild d :: rest2 →
      (a.drop n).isPrefixOf (stdoutBytesOf mid) = true

/-- Claim C8's property: in an error-free run, every byte read from a
source is transcoded and delivered, in order and in full, to its
destination before the relay stops. -/
def fullyDrained (rtl ltr : List Nat → List Nat) (b : Nat) (envs : List IterEnv) : Prop :=
  childBytesOf (interact rtl ltr b envs) =
      ((stdinReadsOf (interact rtl ltr b envs)).map ltr).flatten ∧
    stdoutBytesOf (interact rtl ltr b envs) =
      ((childReadsOf (interact rtl ltr b envs)).map rtl).flatten

/-- First relay iteration of the C4 counterexample run: the child sends
two bytes, standard output accepts one. -/
def c4EnvA : IterEnv :=
  { childReady := true, stdinReady := false, childData := [65, 66], stdinData := [],
    stdoutN := 1, childNs := [] }

/-- Second relay iteration of the C4 counterexample run: another chunk is
read from the child although a byte is still pending. -/
def c4EnvB : IterEnv :=
  { childReady := true, stdinReady := false, childData := [67], stdinData := [],
    stdoutN := 1, childNs := [] }

/-- The C8 counterexample iteration: standard input yields two bytes, the
PTY accepts one byte per write, and the child dies during the flush. -/
def c8Env : IterEnv :=
  { childReady := false, stdinReady := true, childData := [], stdinData := [65, 66],
    stdoutN := 0, childNs := [1] }

/-- Decoding a stream that begins with the encoding of one scalar value
consumes exactly that character and continues with the remainder. -/
theorem decGo_encodeChar (c : Nat) (h : ScalarValue c) (rest : List Nat) :
    utf8DecGo (utf8EncodeChar c ++ rest) = (c :: (utf8DecGo rest).1, (utf8DecGo rest).2) := by
  obtain ⟨hlt, hsur⟩ := h
  by_cases h1 : c < 128
  · simp only [utf8EncodeChar, if_pos h1, List.cons_append, List.nil_append]
    rw [utf8DecGo.eq_def]
    simp only []
    rw [if_pos h1]
  · by_cases h2 : c < 2048
    · simp only [utf8EncodeChar, if_neg h1, if_pos h2, List.cons_append, List.nil_append]
      rw [utf8DecGo.eq_def]
      simp only []
      rw [if_neg (by omega), if_pos (by omega : 194 ≤ 192 + c / 64 ∧ 192 + c / 64 ≤ 223)]
      rw [if_pos (by omega : 128 ≤ 128 + c % 64 ∧ 128 + c % 64 ≤ 191)]
      have e : (192 + c / 64 - 192) * 64 + (128 + c % 64 - 128) = c := by omega
      rw [e]
    · by_cases h3 : c < 65536
      · simp only [utf8EncodeChar, if_neg h1, if_neg h2, if_pos h3, List.cons_append,
          List.nil_append]
        rw [utf8DecGo.eq_def]
        simp only []
        rw [if_neg (by omega), if_neg (by omega),
          if_pos (by omega : 224 ≤ 224 + c / 4096 ∧ 224 + c / 4096 ≤ 239)]
        rw [if_pos (by omega :
          224 + c / 4096 = 224 ∧ 160 ≤ 128 + c / 64 % 64 ∧ 128 + c / 64 % 64 ≤ 191 ∨
          224 + c / 4096 = 237 ∧ 128 ≤ 128 + c / 64 % 64 ∧ 128 + c / 64 % 64 ≤ 159 ∨
          224 + c / 4096 ≠ 224 ∧ 224 + c / 4096 ≠ 237 ∧ 128 ≤ 128 + c / 64 % 64 ∧
            128 + c / 64 % 64 ≤ 191)]
        rw [if_pos (by omega : 128 ≤ 128 + c % 64 ∧ 128 + c % 64 ≤ 191)]
        have e : (224 + c / 4096 - 224) * 4096 + (128 + c / 64 % 64 - 128) * 64 +
            (128 + c % 64 - 128) = c := by omega
        rw [e]
      · simp only [utf8EncodeChar, if_neg h1, if_neg h2, if_neg h3, List.cons_append,
          List.nil_append]
        rw [utf8DecGo.eq_def]
        simp only []
        rw [if_neg (by omega), if_neg (by omega), if_neg (by omega),
          if_pos (by omega : 240 ≤ 240 + c / 262144 ∧ 240 + c / 262144 ≤ 244)]
        rw [if_pos (by omega :
          240 + c / 262144 = 240 ∧ 144 ≤ 128 + c / 4096 % 64 ∧ 128 + c / 4096 % 64 ≤ 191 ∨
          240 + c / 262144 = 244 ∧ 128 ≤ 128 + c / 4096 % 64 ∧ 128 + c / 4096 % 64 ≤ 143 ∨
          240 + c / 262144 ≠ 240 ∧ 240 + c / 262144 ≠ 244 ∧ 128 ≤ 128 + c / 4096 % 64 ∧
            128 + c / 4096 % 64 ≤ 191)]
        rw [if_pos (by omega : 128 ≤ 128 + c / 64 % 64 ∧ 128 + c / 64 % 64 ≤ 191)]
        rw [if_pos (by omega : 128 ≤ 128 + c % 64 ∧ 128 + c % 64 ≤ 191)]
        have e : (240 + c / 262144 - 240) * 262144 + (128 + c / 4096 % 64 - 128) * 4096 +
            (128 + c / 64 % 64 - 128) * 64 + (128 + c % 64 - 128) = c := by omega
        rw [e]

/-- A proper nonempty front part of one character's encoding is a valid
incomplete sequence: the decoder emits nothing and retains it as carry. -/
theorem decGo_encodeChar_take (c : Nat) (h : ScalarValue c) (i : Nat) (hi : 0 < i)
    (hik : i < (utf8EncodeChar c).length) :
    utf8DecGo ((utf8EncodeChar c).take i) = ([], (utf8EncodeChar c).take i) := by
  obtain ⟨hlt, hsur⟩ := h
  by_cases h1 : c < 128
  · exfalso
    simp [utf8EncodeChar, if_pos h1] at hik
    omega
  · by_cases h2 : c < 2048
    · have hi1 : i = 1 := by
        simp [utf8EncodeChar, if_neg h1, if_pos h2] at hik
        omega
      subst hi1
      simp only [utf8EncodeChar, if_neg h1, if_pos h2, List.take_succ_cons, List.take_zero]
      rw [utf8DecGo.eq_def]
      simp only []
      rw [if_neg (by omega), if_pos (by omega : 194 ≤ 192 + c / 64 ∧ 192 + c / 64 ≤ 223)]
    · by_cases h3 : c < 65536
      · have hi12 : i = 1 ∨ i = 2 := by
          simp [utf8EncodeChar, if_neg h1, if_neg h2, if_pos h3] at hik
          omega
        rcases hi12 with hi1 | hi2
        · subst hi1
          simp only [utf8EncodeChar, if_neg h1, if_neg h2, if_pos h3, List.take_succ_cons,
            List.take_zero]
          rw [utf8DecGo.eq_def]
          simp only []
          rw [if_neg (by omega), if_neg (by omega),
            if_pos (by omega : 224 ≤ 224 + c / 4096 ∧ 224 + c / 4096 ≤ 239)]
        · subst hi2
          simp only [utf8EncodeChar, if_neg h1, if_neg h2, if_pos h3, List.take_succ_cons,
            List.take_zero]
          rw [utf8DecGo.eq_def]
          simp only []
          rw [if_neg (by omega), if_neg (by omega),
            if_pos (by omega : 224 ≤ 224 + c / 4096 ∧ 224 + c / 4096 ≤ 239)]
          rw [if_pos (by omega :
            224 + c / 4096 = 224 ∧ 160 ≤ 128 + c / 64 % 64 ∧ 128 + c / 64 % 64 ≤ 191 ∨
            224 + c / 4096 = 237 ∧ 128 ≤ 128 + c / 64 % 64 ∧ 128 + c / 64 % 64 ≤ 159 ∨
            224 + c / 4096 ≠ 224 ∧ 224 + c / 4096 ≠ 237 ∧ 128 ≤ 128 + c / 64 % 64 ∧
              128 + c / 64 % 64 ≤ 191)]
      · have hi123 : i = 1 ∨ i = 2 ∨ i = 3 := by
          simp [utf8EncodeChar, if_neg h1, if_neg h2, if_neg h3] at hik
          omega
        have hcond : 240 + c / 262144 = 240 ∧ 144 ≤ 128 + c / 4096 % 64 ∧
            128 + c / 4096 % 64 ≤ 191 ∨
            240 + c / 262144 = 244 ∧ 128 ≤ 128 + c / 4096 % 64 ∧ 128 + c / 4096 % 64 ≤ 143 ∨
            240 + c / 262144 ≠ 240 ∧ 240 + c / 262144 ≠ 244 ∧ 128 ≤ 128 + c / 4096 % 64 ∧
              128 + c / 4096 % 64 ≤ 191 := by omega
        rcases hi123 with hi1 | hi2 | hi3
        · subst hi1
          simp only [utf8EncodeChar, if_neg h1, if_neg h2, if_neg h3, List.take_succ_cons,
            List.take_zero]
          rw [utf8DecGo.eq_def]
          simp only []
          rw [if_neg (by omega), if_neg (by omega), if_neg (by omega),
            if_pos (by omega : 240 ≤ 240 + c / 262144 ∧ 240 + c / 262144 ≤ 244)]
        · subst hi2
          simp only [utf8EncodeChar, if_neg h1, if_neg h2, if_neg h3, List.take_succ_cons,
            List.take_zero]
          rw [utf8DecGo.eq_def]
          simp only []
          rw [if_neg (by omega), if_neg (by omega), if_neg (by omega),
            if_pos (by omega : 240 ≤ 240 + c / 262144 ∧ 240 + c / 262144 ≤ 244)]
          rw [if_pos hcond]
        · subst hi3
          simp only [utf8EncodeChar, if_neg h1, if_neg h2, if_neg h3, List.take_succ_cons,
            List.take_zero]
          rw [utf8DecGo.eq_def]
          simp only []
          rw [if_neg (by omega), if_neg (by omega), if_neg (by omega),
            if_pos (by omega : 240 ≤ 240 + c / 262144 ∧ 240 + c / 262144 ≤ 244)]
          rw [if_pos hcond]
          rw [if_pos (by omega : 128 ≤ 128 + c / 64 % 64 ∧ 128 + c / 64 % 64 ≤ 191)]

/-- Decoding the encoding of a list of scalar values recovers the list
with an empty carry. -/
theorem decGo_encodeAll (s : List Nat) (h : ∀ c ∈ s, ScalarValue c) :
    utf8DecGo (lenientEncode s) = (s, []) := by
  induction s with
  | nil =>
    rw [show lenientEncode [] = [] from rfl]
    rw [utf8DecGo.eq_def]
  | cons c t ih =>
    have hc : ScalarValue c := h c (List.mem_cons_self c t)
    have henc : lenientEncode (c :: t) = utf8EncodeChar c ++ lenientEncode t := by
      simp [lenientEncode, if_pos hc]
    rw [henc, decGo_encodeChar c hc, ih (fun x hx => h x (List.mem_cons_of_mem c hx))]

/-- C9: for every text all of whose characters are representable in the
encoding, `lenientEncode` followed by `lenientDecode` in the same encoding
with no errors forced yields exactly the original text. -/
theorem lenient_roundtrip (s : List Nat) (h : ∀ c ∈ s, ScalarValue c) :
    lenientDecode (lenientEncode s) = s := by
  simp [lenientDecode, decGo_encodeAll s h]

/-- Witness for C9 on the text "c", U+03B1, U+20AC. -/
theorem lenient_roundtrip_witness :
    lenientDecode (lenientEncode [99, 945, 8364]) = [99, 945, 8364] :=
  lenient_roundtrip [99, 945, 8364] (by decide)

/-- C1: for every byte sequence valid in the source encoding and every
split offset, decoding it in one incremental call produces the same text
as decoding the two pieces in two successive calls with the decoder carry
state threaded between them; a multi-byte character whose bytes are split
across the two chunks is decoded correctly rather than replaced. -/
theorem chunk_boundary_invariance (bs : List Nat) (hv : Utf8Valid bs) (i : Nat) :
    (decodeChunk [] (bs.take i)).1 ++
        (decodeChunk (decodeChunk [] (bs.take i)).2 (bs.drop i)).1 = (decodeChunk [] bs).1 ∧
      (decodeChunk (decodeChunk [] (bs.take i)).2 (bs.drop i)).2 = (decodeChunk [] bs).2 := by
  induction hv generalizing i with
  | nil => simp [decodeChunk, utf8DecGo]
  | cons c rest hc hvr ih =>
    rcases Nat.eq_zero_or_pos i with hi0 | hip
    · subst hi0
      simp [decodeChunk, utf8DecGo]
    · by_cases hik : i < (utf8EncodeChar c).length
      · have ht : (utf8EncodeChar c ++ rest).take i = (utf8EncodeChar c).take i := by
          rw [List.take_append_eq_append_take, Nat.sub_eq_zero_of_le (le_of_lt hik)]
          simp
        have hd : (utf8EncodeChar c ++ rest).drop i = (utf8EncodeChar c).drop i ++ rest := by
          rw [List.drop_append_eq_append_drop, Nat.sub_eq_zero_of_le (le_of_lt hik)]
          simp
        simp only [decodeChunk, List.nil_append, ht, hd]
        rw [decGo_encodeChar_take c hc i hip hik]
        rw [show (([] : List Nat), (utf8EncodeChar c).take i).2 = (utf8EncodeChar c).take i
          from rfl]
        rw [← List.append_assoc, List.take_append_drop]
        exact ⟨rfl, rfl⟩
      · have hki : (utf8EncodeChar c).length ≤ i := le_of_not_lt hik
        have ht : (utf8EncodeChar c ++ rest).take i =
            utf8EncodeChar c ++ rest.take (i - (utf8EncodeChar c).length) := by
          rw [List.take_append_eq_append_take, List.take_of_length_le hki]
        have hd : (utf8EncodeChar c ++ rest).drop i =
            rest.drop (i - (utf8EncodeChar c).length) := by
          rw [List.drop_append_eq_append_drop, List.drop_eq_nil_of_le hki]
          simp
        simp only [decodeChunk, List.nil_append, ht, hd]
        rw [decGo_encodeChar c hc, decGo_encodeChar c hc]
        have hih := ih (i - (utf8EncodeChar c).length)
        simp only [decodeChunk, List.nil_append] at hih
        refine ⟨?_, hih.2⟩
        simp only [List.cons_append]
        rw [hih.1]

/-- Witness for C1: the two-byte character U+03B1 split between the two
chunks. -/
theorem chunk_boundary_invariance_witness :
    (decodeChunk [] ([206, 177].take 1)).1 ++
        (decodeChunk (decodeChunk [] ([206, 177].take 1)).2 ([206, 177].drop 1)).1 =
        (decodeChunk [] [206, 177]).1 ∧
      (decodeChunk (decodeChunk [] ([206, 177].take 1)).2 ([206, 177].drop 1)).2 =
        (decodeChunk [] [206, 177]).2 :=
  chunk_boundary_invariance [206, 177] (by
    have h := Utf8Valid.cons 945 [] (by decide) Utf8Valid.nil
    have e : utf8EncodeChar 945 ++ [] = [206, 177] := by decide
    exact e ▸ h) 1

/-- C2: at the failing input `b'A\xffB'` the decode step produces the
decoded valid prefix, one placeholder character, and the decoded valid
suffix, without aborting -- but the placeholder is U+FFFD (65533), the
replacement character of `errors='replace'`, not the `?` (63) promised by
the claim and by `lenientDecode`'s own docstring and ignored `replace`
parameter. -/
theorem invalid_byte_replacement_divergence :
    lenientDecode [65, 255, 66] = [65, 65533, 66] ∧
      lenientDecode [65, 255, 66] ≠ [65, 63, 66] := by
  have h1 : lenientDecode [65, 255, 66] = [65, 65533, 66] := by
    simp [lenientDecode, utf8DecGo]
  exact ⟨h1, by rw [h1]; decide⟩

/-- Counterexample to C3 as stated: with `force` unset and a child that
survives hangup, continue and interrupt, `terminate` returns false even
though no unconditional kill was ever sent. -/
theorem terminate_false_without_kill :
    ¬ falseOnlyAfterKill immortalChild false :=
  fun h => absurd (h (by decide)) (by decide)

/-- C5: at the failing input `-r UTF-8 -l NOSUCH` (with `NOSUCH` not a
known encoding), validation succeeds -- the source re-validates the remote
encoding where the local one should be checked -- so the program proceeds
to spawn the child instead of failing first. -/
theorem unknown_local_encoding_accepted :
    validateCommandLineArguments knownSample (some "UTF-8".toList) (some "NOSUCH".toList)
        (fun _ => none) = some ("UTF-8".toList, "NOSUCH".toList) ∧
      knownSample "NOSUCH".toList = false :=
  ⟨by decide, by decide⟩

/-- Counterexample to C8: standard input yields two bytes, the PTY
accepts one, the child dies during the flush; the write loop exits and the
second byte is discarded although no descriptor reported an error. -/
theorem undrained_on_child_death : ¬ fullyDrained id id 2 [c8Env] :=
  fun h => absurd h.1 (by decide)

/-- Counterexample to C4: a write of transcoded child output to standard
output is only partially consumed, yet the relay reads again from the
child PTY without ever writing the remaining byte (the source issues a
single unchecked `os.write` for this direction). -/
theorem stdout_not_flushed_counterexample :
    ¬ stdoutFlushedBeforeNextRead (interact id id 3 [c4EnvA, c4EnvB]) := by
  intro h
  have h2 := h [Act.readChild [65, 66]] [65, 66] 1
    [Act.readChild [67], Act.writeStdout [67] 1]
    (by decide) (by decide) [] [67] [Act.writeStdout [67] 1] (by decide)
  exact absurd h2 (by decide)

/-- Counterexample to C6 as stated: on a value with two dots that ends
with the local suffix, `setLocale` keeps only the part before the first
dot, which differs from replacing the suffix. -/
theorem setLocale_not_suffix_replacement :
    setLocale "UTF-8".toList "ISO".toList [("LANG".toList, "a.b.UTF-8".toList)] ≠
      setLocaleSpec "UTF-8".toList "ISO".toList [("LANG".toList, "a.b.UTF-8".toList)] := by
  decide
/-- C4 amended: for the local-to-remote direction the flush loop retries
with exactly the unwritten remainder, delivering an in-order front part of
the pending bytes determined by the accepted counts within the child's
remaining lifetime (all of them when the child lives long enough and the
counts cover the data); the remote-to-local direction issues one unchecked
write and discards the remainder (see the counterexample). -/
theorem write_backpressure (b : Nat) (ns : List Nat) (data : List Nat) :
    childBytesOf (write b ns data).1 = data.take (min data.length (ns.take b).sum) ∧
      (write b ns data).2 = data.drop (min data.length (ns.take b).sum) := by
  induction b generalizing ns data with
  | zero => simp [write, childBytesOf]
  | succ b ih =>
    have hsum : (ns.take (b + 1)).sum = ns.headD 0 + (ns.tail.take b).sum := by
      cases ns <;> simp
    obtain ⟨ih1, ih2⟩ := ih ns.tail (data.drop (min (ns.headD 0) data.length))
    have hidx : min (ns.headD 0) data.length +
        min (data.drop (min (ns.headD 0) data.length)).length (ns.tail.take b).sum =
        min data.length ((ns.take (b + 1)).sum) := by
      rw [hsum]
      simp only [List.length_drop]
      omega
    constructor
    · simp only [write, childBytesOf]
      rw [ih1, ← List.take_add, hidx]
    · show (write b ns.tail (data.drop (min (ns.headD 0) data.length))).2 =
        data.drop (min data.length ((ns.take (b + 1)).sum))
      rw [ih2, List.drop_drop, hidx]
/-- Trace homomorphism lemmas. -/
theorem childBytesOf_append (a b : List Act) :
    childBytesOf (a ++ b) = childBytesOf a ++ childBytesOf b := by
  induction a with
  | nil => rfl
  | cons x t ih => cases x <;> simp [childBytesOf, ih]

theorem stdinReadsOf_append (a b : List Act) :
    stdinReadsOf (a ++ b) = stdinReadsOf a ++ stdinReadsOf b := by
  induction a with
  | nil => rfl
  | cons x t ih => cases x <;> simp [stdinReadsOf, ih]

theorem stdinReadsOf_write (b : Nat) (ns data : List Nat) :
    stdinReadsOf (write b ns data).1 = [] := by
  induction b generalizing ns data with
  | zero => rfl
  | succ b ih => simp [write, stdinReadsOf, ih]

theorem childBytesOf_write (b : Nat) (ns data : List Nat) :
    childBytesOf (write b ns data).1 = data.take (min data.length (ns.take b).sum) := by
  induction b generalizing ns data with
  | zero => simp [write, childBytesOf]
  | succ b ih =>
    have hsum : (ns.take (b + 1)).sum = ns.headD 0 + (ns.tail.take b).sum := by
      cases ns <;> simp
    have hidx : min (ns.headD 0) data.length +
        min (data.drop (min (ns.headD 0) data.length)).length (ns.tail.take b).sum =
        min data.length ((ns.take (b + 1)).sum) := by
      rw [hsum]
      simp only [List.length_drop]
      omega
    simp only [write, childBytesOf]
    rw [ih ns.tail (data.drop (min (ns.headD 0) data.length)), ← List.take_add, hidx]

theorem take_isPrefixOf (l : List Nat) (n : Nat) : (l.take n).isPrefixOf l = true := by
  induction l generalizing n with
  | nil => simp [List.isPrefixOf]
  | cons a t ih =>
    cases n with
    | zero => simp [List.isPrefixOf]
    | succ n => simp [List.isPrefixOf, ih]

theorem interact_zero (rtl ltr : List Nat → List Nat) (es : List IterEnv) :
    interact rtl ltr 0 es = [] := by
  cases es <;> rfl

/-- C8 amended: bytes delivered to the child are always an in-order
front part of the transcoding of the bytes read from standard input --
nothing is reordered or skipped -- but once liveness reports the child
gone the flush loop stops and the unwritten suffix is discarded (see the
counterexample). -/
theorem interact_writes_ordered (rtl ltr : List Nat → List Nat) (b : Nat)
    (envs : List IterEnv) :
    (childBytesOf (interact rtl ltr b envs)).isPrefixOf
      ((stdinReadsOf (interact rtl ltr b envs)).map ltr).flatten = true := by
  induction envs generalizing b with
  | nil => simp [interact, childBytesOf, stdinReadsOf, List.isPrefixOf]
  | cons e es ih =>
    cases b with
    | zero => simp [interact, childBytesOf, stdinReadsOf, List.isPrefixOf]
    | succ b =>
      simp only [interact]
      by_cases hs : e.stdinReady
      · rw [if_pos hs, interact_zero]
        by_cases hc : e.childReady
        · rw [if_pos hc]
          simp only [childBytesOf_append, stdinReadsOf_append, childBytesOf, stdinReadsOf,
            List.append_eq, List.append_nil, List.nil_append]
          rw [childBytesOf_write, stdinReadsOf_write]
          simp only [List.append_nil, List.map_cons, List.map_nil, List.flatten_cons,
            List.flatten_nil, List.append_nil, List.nil_append]
          exact take_isPrefixOf (ltr e.stdinData) _
        · rw [if_neg hc]
          simp only [childBytesOf_append, stdinReadsOf_append, childBytesOf, stdinReadsOf,
            List.append_eq, List.append_nil, List.nil_append]
          rw [childBytesOf_write, stdinReadsOf_write]
          simp only [List.append_nil, List.map_cons, List.map_nil, List.flatten_cons,
            List.flatten_nil, List.append_nil, List.nil_append]
          exact take_isPrefixOf (ltr e.stdinData) _
      · rw [if_neg hs]
        by_cases hc : e.childReady
        · rw [if_pos hc]
          simp only [childBytesOf_append, stdinReadsOf_append, childBytesOf, stdinReadsOf,
            List.append_nil, List.nil_append]
          exact ih b
        · rw [if_neg hc]
          simp only [childBytesOf_append, stdinReadsOf_append, childBytesOf, stdinReadsOf,
            List.append_nil, List.nil_append]
          exact ih b
/-- C7: after a first successful `close()`, every later `close()` call
raises no error, performs no action (in particular does not close the PTY
master again), and the session has descriptor -1 and the closed flag
set. -/
theorem close_idempotent (s : Sess) (f f' : Bool) (s' : Sess) (acts : List CAct)
    (h0 : s.closed = false) (h : close s f = some (s', acts)) :
    close s' f' = some (s', []) ∧ s'.fd = -1 ∧ s'.closed = true := by
  unfold close at h
  rw [h0] at h
  simp only [Bool.false_eq_true, if_false] at h
  split_ifs at h with ha htm
  · simp only [Option.some.injEq, Prod.mk.injEq] at h
    obtain ⟨h1, h2⟩ := h
    subst h1
    refine ⟨?_, rfl, rfl⟩
    simp [close]
  · simp only [Option.some.injEq, Prod.mk.injEq] at h
    obtain ⟨h1, h2⟩ := h
    subst h1
    refine ⟨?_, rfl, rfl⟩
    simp [close]

/-- Witness for C7: closing a session with a dead child, then closing
again. -/
theorem close_idempotent_witness :
    close { fd := -1, closed := true, child := deadChild } true =
        some ({ fd := -1, closed := true, child := deadChild }, []) ∧
      Sess.fd { fd := -1, closed := true, child := deadChild } = -1 ∧
      Sess.closed { fd := -1, closed := true, child := deadChild } = true :=
  close_idempotent { fd := 5, closed := false, child := deadChild } true true
    { fd := -1, closed := true, child := deadChild } [CAct.closeFd 5] rfl rfl
/-- The loop body of `guessEncoding` accepts exactly the values the
claim describes (the truthiness test is subsumed: an empty value has no
dot). -/
theorem tryKeyVal_eq_qualifyingSuffix (known : List Char → Bool) (v : List Char) :
    tryKeyVal known v = qualifyingSuffix known v := by
  by_cases hv : v = []
  · subst hv
    rfl
  · simp [tryKeyVal, qualifyingSuffix, hv]

/-- The loop returns the first qualifying suffix in key order. -/
theorem guessLoop_eq_head (known : List Char → Bool) (env : List Char → Option (List Char))
    (ks : List (List Char)) :
    guessLoop known env ks =
      (ks.filterMap (fun k => (env k).bind (qualifyingSuffix known))).head? := by
  induction ks with
  | nil => rfl
  | cons k ks ih =>
    cases he : env k with
    | none => simp [guessLoop, he, ih]
    | some v =>
      cases ht : qualifyingSuffix known v with
      | none =>
        simp [guessLoop, he, tryKeyVal_eq_qualifyingSuffix, ht, ih, List.filterMap_cons]
      | some e =>
        simp [guessLoop, he, tryKeyVal_eq_qualifyingSuffix, ht, List.filterMap_cons]

/-- C10: `guessEncoding` examines LC_ALL, LC_CTYPE, LANG in that order
and returns the encoding suffix of the first variable whose value splits
into exactly two parts at a dot with a known-encoding suffix, skipping
unset, dotless, multi-dot and unknown-encoding values; when no variable
qualifies, validation without an explicit local encoding fails (exit with
a diagnostic). -/
theorem guessEncoding_first_qualifying (known : List Char → Bool)
    (env : List Char → Option (List Char)) (r : List Char) :
    guessEncoding known env = (qualifyingSuffixes known env).head? ∧
      (known (upperLC r) = true → guessEncoding known env = none →
        validateCommandLineArguments known (some r) none env = none) := by
  constructor
  · exact guessLoop_eq_head known env localeKeys
  · intro hk hg
    simp [validateCommandLineArguments, hk, hg]

/-- Witness for C10: an empty environment makes validation fail. -/
theorem guessEncoding_first_qualifying_witness :
    validateCommandLineArguments knownSample (some "utf-8".toList) none (fun _ => none) =
      none :=
  (guessEncoding_first_qualifying knownSample (fun _ => none) "utf-8".toList).2
    (by decide) (by decide)

/-- The part before the first dot of `p ++ '.' :: t` is `p` when `p` is
dot-free. -/
theorem beforeDot_append (p t : List Char) (hp : countDots p = 0) :
    beforeDot (p ++ '.' :: t) = p := by
  induction p with
  | nil => simp [beforeDot, List.takeWhile_cons]
  | cons a p ih =>
    have hcc : countDots (a :: p) = countDots p + if a = '.' then 1 else 0 := by
      simp [countDots, List.count_cons]
    rw [hcc] at hp
    have ha : a ≠ '.' := by
      intro hEq
      rw [if_pos hEq] at hp
      omega
    rw [if_neg ha] at hp
    simp [beforeDot, List.takeWhile_cons, ha] at ih ⊢
    exact ih (by omega)
theorem countDots_append (p q : List Char) :
    countDots (p ++ q) = countDots p + countDots q := by
  simp [countDots, List.count_append]

/-- On a value with at most one dot that ends with the dot-prefixed
local suffix, keeping the part before the first dot agrees with removing
the suffix. -/
theorem rewrite_value_agree (u w v : List Char) (hv : ('.' :: u).isSuffixOf v = true)
    (hd : countDots v ≤ 1) :
    beforeDot v ++ '.' :: w = v.take (v.length - ('.' :: u).length) ++ '.' :: w := by
  obtain ⟨p, hp⟩ := List.isSuffixOf_iff_suffix.mp hv
  subst hp
  have hdu : countDots ('.' :: u) = countDots u + 1 := by
    simp [countDots, List.count_cons]
  rw [countDots_append, hdu] at hd
  have hcp : countDots p = 0 := by omega
  rw [beforeDot_append p u hcp]
  congr 1
  have hlen : (p ++ '.' :: u).length - ('.' :: u).length = p.length := by
    simp [List.length_append]
  rw [hlen]
  exact (List.take_left p ('.' :: u)).symm
/-- C6 amended: `setLocale` returns a new mapping with exactly the same
keys in which precisely the locale entries (`LANG` or `LC_*`) whose value
ends with `'.' + upper(local)` are rewritten; the rewritten value is the
part before the first dot followed by `'.' + upper(remote)`, which
coincides with replacing the suffix whenever the value contains at most
one dot. -/
theorem setLocale_spec_agreement (localE remoteE : List Char)
    (env : List (List Char × List Char)) (h : ∀ kv ∈ env, countDots kv.2 ≤ 1) :
    setLocale localE remoteE env = setLocaleSpec localE remoteE env ∧
      (setLocale localE remoteE env).map Prod.fst = env.map Prod.fst := by
  constructor
  · unfold setLocale setLocaleSpec
    apply List.map_congr_left
    intro kv hkv
    by_cases hk : isLocaleKey kv.1 = true
    · rw [if_pos hk, if_pos hk]
      by_cases hsuf : ('.' :: upperLC localE).isSuffixOf kv.2 = true
      · rw [if_pos hsuf, if_pos hsuf]
        exact congrArg (Prod.mk kv.1) (rewrite_value_agree _ _ _ hsuf (h kv hkv))
      · rw [if_neg hsuf, if_neg hsuf]
    · rw [if_neg hk, if_neg hk]
  · unfold setLocale
    rw [List.map_map]
    apply List.map_congr_left
    intro kv hkv
    simp only [Function.comp]
    split_ifs <;> rfl

/-- Witness for C6 on a typical single-dot locale value. -/
theorem setLocale_spec_agreement_witness :
    setLocale "utf-8".toList "iso8859-7".toList [("LANG".toList, "en_US.UTF-8".toList)] =
        setLocaleSpec "utf-8".toList "iso8859-7".toList
          [("LANG".toList, "en_US.UTF-8".toList)] ∧
      (setLocale "utf-8".toList "iso8859-7".toList
          [("LANG".toList, "en_US.UTF-8".toList)]).map Prod.fst =
        [("LANG".toList, "en_US.UTF-8".toList)].map Prod.fst :=
  setLocale_spec_agreement "utf-8".toList "iso8859-7".toList
    [("LANG".toList, "en_US.UTF-8".toList)] (by decide)

/-- C3 amended: `terminate(force)` sends a front part of the escalation
sequence hangup, continue, interrupt and -- only when `force` is set --
kill; it returns true exactly when a liveness check reports the child
gone, stopping at the first such check (the child is still alive before
the last signal sent); it returns false only after the whole escalation
for the given `force` has been sent (with `force`, only if the child
survives the unconditional kill); a child dead at entry yields true with
no signal sent. -/
theorem terminate_escalation (c : Child) (force : Bool) :
    (c.alive = false → terminate c force = (true, [], c)) ∧
      (terminate c force).2.1.isPrefixOf (fullSeq force) = true ∧
      ((terminate c force).1 = true ↔
        (applySigs c (terminate c force).2.1).alive = false) ∧
      ((terminate c force).1 = false → (terminate c force).2.1 = fullSeq force) ∧
      ((terminate c force).2.1 ≠ [] →
        (applySigs c (terminate c force).2.1.dropLast).alive = true) ∧
      (terminate c force).2.2 = applySigs c (terminate c force).2.1 := by
  obtain ⟨a, d⟩ := c
  cases a with
  | false =>
    refine ⟨?_, ?_, ?_, ?_, ?_, ?_⟩ <;>
      simp [terminate, applySigs, fullSeq, List.isPrefixOf, sendSig]
  | true =>
    cases h1 : d Sig.hup <;> cases h2 : d Sig.cont <;> cases h3 : d Sig.intr <;>
      cases h4 : d Sig.kill <;> cases force <;>
      refine ⟨?_, ?_, ?_, ?_, ?_, ?_⟩ <;>
      simp [terminate, sendSig, applySigs, fullSeq, h1, h2, h3, h4, List.isPrefixOf]

/-- Witness for C3: a child already dead at entry. -/
theorem terminate_escalation_witness :
    terminate deadChild false = (true, [], deadChild) :=
  (terminate_escalation deadChild false).1 rfl

/-- Witness for C4 on a concrete flush. -/
theorem write_backpressure_witness :
    childBytesOf (write 2 [1, 5] [10, 20, 30]).1 =
        [10, 20, 30].take (min [10, 20, 30].length ([1, 5].take 2).sum) ∧
      (write 2 [1, 5] [10, 20, 30]).2 =
        [10, 20, 30].drop (min [10, 20, 30].length ([1, 5].take 2).sum) :=
  write_backpressure 2 [1, 5] [10, 20, 30]
end Ttyconv
